import Mathlib

/-!
Shallow embedding of the core game logic of the wordall repository
(`src/wordall/game.py`): the guess scorer `Guess._get_guess_letter_states`,
the alphabet-knowledge update `WordleGame._update_alphabet_states`, and the
`WordleGame.guess_word` state machine, together with proofs of the
specification claims about them.  Python strings are modelled as `List Char`
(the code only iterates over them, indexes them, compares them and counts
characters).
-/

namespace Wordall

/-- Mirrors `GameState` in game.py. -/
inductive GameState where
  | GUESSING
  | SUCCEEDED
  | FAILED
deriving DecidableEq

/-- Mirrors `GuessLetterState` in game.py. -/
inductive GuessLetterState where
  | CORRECT
  | ELSEWHERE
  | INCORRECT
deriving DecidableEq

/-- Mirrors `AlphabetLetterState` in game.py. -/
inductive AlphabetLetterState where
  | FOUND
  | FOUND_ELSEWHERE
  | UNUSED
  | NOT_GUESSED
deriving DecidableEq

/-- Decrementing a Python `Counter` entry (`target_letter_counter[c] -= 1`).
The counter is modelled as a total function; in `_get_guess_letter_states`
only characters of the target word are ever decremented, so the key set of
the Python dict stays exactly the set of characters of the target. -/
def decr (cnt : Char → Int) (c : Char) : Char → Int :=
  fun d => if d = c then cnt d - 1 else cnt d

/-- `collections.Counter(target_word)` as a total function (a missing key
reads as 0). Python counts are `int`, hence `Int`. -/
def initCounter (target : List Char) : Char → Int :=
  fun c => (target.count c : Int)

/-- The marks after the first loop of `Guess._get_guess_letter_states`
(game.py lines 219-223): starting from the all-INCORRECT initialisation of
line 217, position `i` becomes CORRECT exactly when
`len(target_word) > i and target_word[i] == c`, i.e. `target[i]? = some c`.
The same loop iteration also decrements the counter for each CORRECT mark;
that independent effect on the counter is `pass1Counter` below. -/
def pass1States (target : List Char) : Nat → List Char → List (Char × GuessLetterState)
  | _, [] => []
  | i, c :: cs =>
    (c, if target[i]? = some c then GuessLetterState.CORRECT
        else GuessLetterState.INCORRECT) :: pass1States target (i + 1) cs

/-- The counter updates performed by the first loop of
`Guess._get_guess_letter_states` (game.py line 223). -/
def pass1Counter (target : List Char) : Nat → List Char → (Char → Int) → Char → Int
  | _, [], cnt => cnt
  | i, c :: cs, cnt =>
    if target[i]? = some c then pass1Counter target (i + 1) cs (decr cnt c)
    else pass1Counter target (i + 1) cs cnt

/-- The second loop of `Guess._get_guess_letter_states` (game.py lines
226-233): positions already CORRECT are skipped; otherwise, when the guessed
character is a key of the counter (the keys of `Counter(target_word)` are
exactly the characters of the target and are never added or removed, so
`c in target_letter_counter` is `c ∈ target`) and its count is still
positive, the position is remarked ELSEWHERE and the count decremented;
otherwise the mark from the first pass is left as it is. -/
def pass2 (target : List Char) :
    List (Char × GuessLetterState) → (Char → Int) → List (Char × GuessLetterState)
  | [], _ => []
  | (c, s) :: rest, cnt =>
    if s = GuessLetterState.CORRECT then (c, s) :: pass2 target rest cnt
    else if c ∈ target ∧ 0 < cnt c then
      (c, GuessLetterState.ELSEWHERE) :: pass2 target rest (decr cnt c)
    else (c, s) :: pass2 target rest cnt

/-- Mirrors the static method `Guess._get_guess_letter_states` in game.py
(lines 212-235). -/
def get_guess_letter_states (guess_word target_word : List Char) :
    List (Char × GuessLetterState) :=
  pass2 target_word (pass1States target_word 0 guess_word)
    (pass1Counter target_word 0 guess_word (initCounter target_word))

/-- Number of (symbol, state) pairs for symbol `c` carrying exactly state `s`. -/
def ccount (c : Char) (s : GuessLetterState) : List (Char × GuessLetterState) → Nat
  | [] => 0
  | p :: rest => (if p.1 = c ∧ p.2 = s then 1 else 0) + ccount c s rest

/-- Number of pairs for symbol `c` whose state is CORRECT or ELSEWHERE
(the non-INCORRECT marks awarded to `c`). -/
def niCount (c : Char) : List (Char × GuessLetterState) → Nat
  | [] => 0
  | p :: rest =>
    (if p.1 = c ∧ p.2 ≠ GuessLetterState.INCORRECT then 1 else 0) + niCount c rest

/-- One iteration of the loop in `WordleGame._update_alphabet_states`
(game.py lines 163-183). `none` models the `assert` on line 174 firing, that
is, an `AssertionError` propagating out of the update. -/
def update_alphabet_state (st : Char → AlphabetLetterState) (c : Char)
    (s : GuessLetterState) : Option (Char → AlphabetLetterState) :=
  match s with
  | GuessLetterState.CORRECT =>
    some fun d => if d = c then AlphabetLetterState.FOUND else st d
  | GuessLetterState.ELSEWHERE =>
    if st c ≠ AlphabetLetterState.FOUND then
      if st c = AlphabetLetterState.UNUSED then none
      else some fun d => if d = c then AlphabetLetterState.FOUND_ELSEWHERE else st d
    else some st
  | GuessLetterState.INCORRECT =>
    if st c = AlphabetLetterState.NOT_GUESSED then
      some fun d => if d = c then AlphabetLetterState.UNUSED else st d
    else some st

/-- Mirrors `WordleGame._update_alphabet_states` (game.py lines 154-183):
the loop over `guess.guess_letter_states`, threading the mutable
`alphabet_states` dict; `none` when the `assert` fires. -/
def update_alphabet_states (st : Char → AlphabetLetterState) :
    List (Char × GuessLetterState) → Option (Char → AlphabetLetterState)
  | [] => some st
  | p :: rest =>
    match update_alphabet_state st p.1 p.2 with
    | none => none
    | some st2 => update_alphabet_states st2 rest

/-- Mirrors the `Guess` object (game.py lines 189-210): the submitted guess
word, the target it was scored against, and the computed letter states.
Equality is structural, as in `Guess.__eq__`. -/
structure GuessRec where
  guess_word : List Char
  target_word : List Char
  guess_letter_states : List (Char × GuessLetterState)
deriving DecidableEq

/-- Mirrors `Guess.__init__`. -/
def mkGuess (guess_word target_word : List Char) : GuessRec :=
  ⟨guess_word, target_word, get_guess_letter_states guess_word target_word⟩

/-- The exceptions that `WordleGame.guess_word` can raise (game.py lines
242-247, plus Python's built-in `AssertionError` for the assert in
`_update_alphabet_states`). -/
inductive GuessError where
  | GameAlreadyFinishedError
  | InvalidGuessWordError
  | AssertionError
deriving DecidableEq

/-- The state of a `WordleGame` (game.py lines 76-97). `guess_limit` is a
Python `int`, hence `Int`; `word_dictionary` is the loaded set of words;
`alphabet_states` is the per-letter knowledge dict (total here: the Python
dict has exactly the keys A-Z and accepted guesses only contain those). -/
structure WordleGame where
  guess_limit : Int
  word_dictionary : List (List Char)
  target : List Char
  guesses : List GuessRec
  alphabet_states : Char → AlphabetLetterState
  game_state : GameState

/-- Mirrors `WordleGame.is_valid_word` (game.py lines 185-186):
`word in self.word_dictionary and len(word) == len(self.target)`. -/
def is_valid_word (g : WordleGame) (w : List Char) : Bool :=
  decide (w ∈ g.word_dictionary) && decide (w.length = g.target.length)

/-- Mirrors `WordleGame.guess_word` (game.py lines 134-152) in state-passing
style: an exception leaves the caller's state untouched, a normal return
yields the updated state together with the returned boolean.  In the Python
code the append to `self.guesses` happens before `_update_alphabet_states`;
since the only path on which that ordering could be observed is the `assert`
firing (proved unreachable for reachable sessions below), the model folds
the whole call into one step and reports an `AssertionError` without the
partial mutation. -/
def guess_word (g : WordleGame) (w : List Char) : Except GuessError (WordleGame × Bool) :=
  if g.game_state ≠ GameState.GUESSING then
    Except.error GuessError.GameAlreadyFinishedError
  else if is_valid_word g w = false then
    Except.error GuessError.InvalidGuessWordError
  else
    match update_alphabet_states g.alphabet_states (get_guess_letter_states w g.target) with
    | none => Except.error GuessError.AssertionError
    | some alpha2 =>
      if w = g.target then
        Except.ok ({ g with
          guesses := g.guesses ++ [mkGuess w g.target]
          alphabet_states := alpha2
          game_state := GameState.SUCCEEDED }, true)
      else if ((g.guesses ++ [mkGuess w g.target]).length : Int) = g.guess_limit then
        Except.ok ({ g with
          guesses := g.guesses ++ [mkGuess w g.target]
          alphabet_states := alpha2
          game_state := GameState.FAILED }, true)
      else
        Except.ok ({ g with
          guesses := g.guesses ++ [mkGuess w g.target]
          alphabet_states := alpha2 }, false)

/-- A freshly constructed `WordleGame` (game.py lines 76-97): `_select_target`
picks the target from the loaded dictionary, `guesses` starts empty, every
alphabet letter starts NOT_GUESSED, and the state is GUESSING. -/
def initGame (guess_limit : Int) (word_dictionary : List (List Char))
    (target : List Char) : WordleGame :=
  { guess_limit := guess_limit
    word_dictionary := word_dictionary
    target := target
    guesses := []
    alphabet_states := fun _ => AlphabetLetterState.NOT_GUESSED
    game_state := GameState.GUESSING }

/-- The sessions reachable through the public interface: a fresh game whose
target was drawn from its dictionary, followed by any number of successful
`guess_word` calls. -/
inductive ReachableGame : WordleGame → Prop where
  | init (guess_limit : Int) (word_dictionary : List (List Char))
      (target : List Char) (h : target ∈ word_dictionary) :
      ReachableGame (initGame guess_limit word_dictionary target)
  | step (g g' : WordleGame) (w : List Char) (b : Bool) (hg : ReachableGame g)
      (h : guess_word g w = Except.ok (g', b)) : ReachableGame g'

/-- Spec-side scorer, pass 1 (spec §4.1, step 2), with the multiset in the
spec's own representation "symbol → remaining count": the remaining counts
after each Correct mark (guess symbol equal to the target symbol at the same
position, the position being within target bounds) decrements its symbol. -/
def specPool1 (target : List Char) : Nat → List Char → (Char → Nat) → Char → Nat
  | _, [], pool => pool
  | i, c :: cs, pool =>
    if target[i]? = some c then
      specPool1 target (i + 1) cs (fun d => if d = c then pool d - 1 else pool d)
    else specPool1 target (i + 1) cs pool

/-- Spec-side scorer, pass 2 (spec §4.1, step 3): for each position not
already Correct, Elsewhere and a decrement if the symbol's remaining count
is positive, else Incorrect. -/
def specPass2 (target : List Char) :
    Nat → List Char → (Char → Nat) → List (Char × GuessLetterState)
  | _, [], _ => []
  | i, c :: cs, pool =>
    if target[i]? = some c then
      (c, GuessLetterState.CORRECT) :: specPass2 target (i + 1) cs pool
    else if 0 < pool c then
      (c, GuessLetterState.ELSEWHERE) ::
        specPass2 target (i + 1) cs (fun d => if d = c then pool d - 1 else pool d)
    else (c, GuessLetterState.INCORRECT) :: specPass2 target (i + 1) cs pool

/-- The scorer exactly as §4.1 of the spec words it, for comparison with the
implementation `get_guess_letter_states`. -/
def specScore (guess target : List Char) : List (Char × GuessLetterState) :=
  specPass2 target 0 guess (specPool1 target 0 guess fun c => target.count c)

/-- The per-pair alphabet-knowledge update rule of spec §4.2, as a total
function: Correct forces Found; Elsewhere leaves Found alone and otherwise
sets FoundElsewhere; Incorrect turns NotGuessed into Unused and leaves
anything else unchanged; other symbols keep their knowledge. -/
def specAlphaStep (st : Char → AlphabetLetterState) (p : Char × GuessLetterState) :
    Char → AlphabetLetterState :=
  fun d =>
    if d = p.1 then
      match p.2 with
      | GuessLetterState.CORRECT => AlphabetLetterState.FOUND
      | GuessLetterState.ELSEWHERE =>
        if st p.1 = AlphabetLetterState.FOUND then AlphabetLetterState.FOUND
        else AlphabetLetterState.FOUND_ELSEWHERE
      | GuessLetterState.INCORRECT =>
        if st p.1 = AlphabetLetterState.NOT_GUESSED then AlphabetLetterState.UNUSED
        else st p.1
    else st d

/-- The forward-only transition relation on per-symbol knowledge claimed in
spec §4.2 and §8: Found is absorbing, FoundElsewhere may only stay or move
to Found, the only way out of Unused is the permitted jump to Found, and
NotGuessed (the bottom of the ordering) may move anywhere. -/
def stepOK : AlphabetLetterState → AlphabetLetterState → Prop
  | AlphabetLetterState.FOUND, a => a = AlphabetLetterState.FOUND
  | AlphabetLetterState.FOUND_ELSEWHERE, a =>
    a = AlphabetLetterState.FOUND_ELSEWHERE ∨ a = AlphabetLetterState.FOUND
  | AlphabetLetterState.UNUSED, a =>
    a = AlphabetLetterState.UNUSED ∨ a = AlphabetLetterState.FOUND
  | AlphabetLetterState.NOT_GUESSED, _ => True

/-- The key invariant tying alphabet knowledge to the target: a symbol only
ever shows as UNUSED when the target does not contain it at all. -/
def AlphaOK (target : List Char) (st : Char → AlphabetLetterState) : Prop :=
  ∀ c, st c = AlphabetLetterState.UNUSED → target.count c = 0

/-- Well-formedness of a scorer output used by the alphabet update: once a
symbol got an INCORRECT mark, no later mark of the same symbol is ELSEWHERE. -/
def NoElseAfterInc : List (Char × GuessLetterState) → Prop
  | [] => True
  | p :: rest =>
    (p.2 = GuessLetterState.INCORRECT →
      ∀ q ∈ rest, q.1 = p.1 → q.2 ≠ GuessLetterState.ELSEWHERE) ∧
    NoElseAfterInc rest

/-! ### Basic facts about pass 1 of the scorer -/

theorem pass1States_map_fst (t : List Char) :
    ∀ (g : List Char) (i : Nat), (pass1States t i g).map Prod.fst = g
  | [], _ => rfl
  | c :: cs, i => by
    simp [pass1States, pass1States_map_fst t cs (i + 1)]

theorem pass1States_snd (t : List Char) :
    ∀ (g : List Char) (i : Nat), ∀ p ∈ pass1States t i g, p.2 ≠ GuessLetterState.ELSEWHERE
  | [], _, p, hp => by simp [pass1States] at hp
  | c :: cs, i, p, hp => by
    simp only [pass1States, List.mem_cons] at hp
    rcases hp with hp | hp
    · subst hp
      by_cases h : t[i]? = some c <;> simp [h]
    · exact pass1States_snd t cs (i + 1) p hp

theorem pass1States_getElem? (t : List Char) :
    ∀ (g : List Char) (i j : Nat),
      (pass1States t i g)[j]? = (g[j]?).map
        (fun c => (c, if t[i + j]? = some c then GuessLetterState.CORRECT
                      else GuessLetterState.INCORRECT))
  | [], i, j => by simp [pass1States]
  | c :: cs, i, 0 => by simp [pass1States]
  | c :: cs, i, j + 1 => by
    have h := pass1States_getElem? t cs (i + 1) j
    have harith : i + 1 + j = i + (j + 1) := by omega
    rw [harith] at h
    simpa [pass1States] using h

theorem pass1Counter_apply (t : List Char) (c : Char) :
    ∀ (g : List Char) (i : Nat) (cnt : Char → Int),
      pass1Counter t i g cnt c =
        cnt c - (ccount c GuessLetterState.CORRECT (pass1States t i g) : Int)
  | [], i, cnt => by simp [pass1Counter, pass1States, ccount]
  | d :: ds, i, cnt => by
    have h := pass1Counter_apply t c ds (i + 1)
    by_cases hc : t[i]? = some d
    · rw [pass1Counter, if_pos hc, h (decr cnt d), pass1States, ccount, if_pos hc]
      by_cases hdc : d = c
      · subst hdc; simp [decr]; omega
      · simp [decr, hdc, Ne.symm hdc]
    · rw [pass1Counter, if_neg hc, h cnt, pass1States, ccount, if_neg hc]
      simp

/-- If `l[i]? = some a` then dropping `i` elements uncovers `a`. -/
theorem drop_getElem?_cons {α : Type} :
    ∀ (l : List α) (i : Nat) (a : α), l[i]? = some a → l.drop i = a :: l.drop (i + 1)
  | x :: xs, 0, a, h => by
    simp only [List.getElem?_cons_zero, Option.some.injEq] at h
    simp [h]
  | x :: xs, i + 1, a, h => by
    simp only [List.getElem?_cons_succ] at h
    simpa using drop_getElem?_cons xs i a h

/-- The CORRECT marks of the first pass, for a fixed character `c`, are at
most the number of copies of `c` left in the target from the scan point on. -/
theorem ccount_correct_le (t : List Char) (c : Char) :
    ∀ (g : List Char) (i : Nat),
      ccount c GuessLetterState.CORRECT (pass1States t i g) ≤ (t.drop i).count c
  | [], i => by simp [pass1States, ccount]
  | d :: ds, i => by
    have ih := ccount_correct_le t c ds (i + 1)
    have hd : ∀ a, t[i]? = some a →
        (t.drop i).count c = (t.drop (i + 1)).count c + (if a == c then 1 else 0) := by
      intro a h
      rw [drop_getElem?_cons t i a h, List.count_cons]
    by_cases hc : t[i]? = some d
    · by_cases hdc : d = c
      · subst hdc
        simp [pass1States, ccount, hc, hd d hc]
        omega
      · simp [pass1States, ccount, hc, hdc, hd d hc]
        omega
    · have hmono : (t.drop (i + 1)).count c ≤ (t.drop i).count c := by
        cases h : t[i]? with
        | none =>
          rw [List.getElem?_eq_none_iff] at h
          simp [List.drop_eq_nil_of_le h,
            List.drop_eq_nil_of_le (show t.length ≤ i + 1 by omega)]
        | some a => rw [hd a h]; omega
      simp [pass1States, ccount, hc]
      omega

/-! ### Basic facts about pass 2 of the scorer -/

theorem pass2_map_fst (t : List Char) :
    ∀ (l : List (Char × GuessLetterState)) (cnt : Char → Int),
      (pass2 t l cnt).map Prod.fst = l.map Prod.fst
  | [], _ => rfl
  | (c, s) :: rest, cnt => by
    by_cases h1 : s = GuessLetterState.CORRECT
    · simp [pass2, h1, pass2_map_fst t rest cnt]
    · by_cases h2 : c ∈ t ∧ 0 < cnt c
      · simp [pass2, h1, h2, pass2_map_fst t rest (decr cnt c)]
      · simp [pass2, h1, h2, pass2_map_fst t rest cnt]

theorem pass2_correct_iff (t : List Char) :
    ∀ (l : List (Char × GuessLetterState)) (cnt : Char → Int) (j : Nat) (c : Char),
      (pass2 t l cnt)[j]? = some (c, GuessLetterState.CORRECT) ↔
        l[j]? = some (c, GuessLetterState.CORRECT)
  | [], cnt, j, c => by simp [pass2]
  | (d, s) :: rest, cnt, j, c => by
    by_cases h1 : s = GuessLetterState.CORRECT
    · subst h1
      cases j with
      | zero => simp [pass2]
      | succ j => simpa [pass2] using pass2_correct_iff t rest cnt j c
    · by_cases h2 : d ∈ t ∧ 0 < cnt d
      · cases j with
        | zero => simp [pass2, h1, h2]
        | succ j => simpa [pass2, h1, h2] using pass2_correct_iff t rest (decr cnt d) j c
      · cases j with
        | zero => simp [pass2, h1, h2]
        | succ j => simpa [pass2, h1, h2] using pass2_correct_iff t rest cnt j c

theorem pass2_mem_correct (t : List Char) (c : Char) :
    ∀ (l : List (Char × GuessLetterState)) (cnt : Char → Int),
      (c, GuessLetterState.CORRECT) ∈ l → (c, GuessLetterState.CORRECT) ∈ pass2 t l cnt
  | [], cnt, hm => by simp at hm
  | (d, s) :: rest, cnt, hm => by
    rcases List.mem_cons.mp hm with h | h
    · injection h with h1 h2
      subst h1
      subst h2
      simp [pass2]
    · by_cases h1 : s = GuessLetterState.CORRECT
      · simp only [pass2, if_pos h1]
        exact List.mem_cons_of_mem _ (pass2_mem_correct t c rest cnt h)
      · by_cases h2 : d ∈ t ∧ 0 < cnt d
        · simp only [pass2, if_neg h1, if_pos h2]
          exact List.mem_cons_of_mem _ (pass2_mem_correct t c rest (decr cnt d) h)
        · simp only [pass2, if_neg h1, if_neg h2]
          exact List.mem_cons_of_mem _ (pass2_mem_correct t c rest cnt h)

theorem pass2_elsewhere_pos (t : List Char) (c : Char) :
    ∀ (l : List (Char × GuessLetterState)) (cnt : Char → Int),
      (∀ p ∈ l, p.2 ≠ GuessLetterState.ELSEWHERE) →
      (c, GuessLetterState.ELSEWHERE) ∈ pass2 t l cnt → c ∈ t ∧ 0 < cnt c
  | [], cnt, hl, hm => by simp [pass2] at hm
  | (d, s) :: rest, cnt, hl, hm => by
    have hrest : ∀ p ∈ rest, p.2 ≠ GuessLetterState.ELSEWHERE :=
      fun p hp => hl p (List.mem_cons_of_mem _ hp)
    by_cases h1 : s = GuessLetterState.CORRECT
    · simp only [pass2, if_pos h1] at hm
      rcases List.mem_cons.mp hm with h | h
      · injection h with hc hs
        rw [h1] at hs
        simp at hs
      · exact pass2_elsewhere_pos t c rest cnt hrest h
    · by_cases h2 : d ∈ t ∧ 0 < cnt d
      · simp only [pass2, if_neg h1, if_pos h2] at hm
        rcases List.mem_cons.mp hm with h | h
        · injection h with hc hs
          subst hc
          exact h2
        · have h3 := pass2_elsewhere_pos t c rest (decr cnt d) hrest h
          refine ⟨h3.1, ?_⟩
          have h4 := h3.2
          by_cases hcd : c = d
          · subst hcd
            simp [decr] at h4
            omega
          · simp [decr, hcd] at h4
            omega
      · simp only [pass2, if_neg h1, if_neg h2] at hm
        rcases List.mem_cons.mp hm with h | h
        · injection h with hc hs
          exact absurd hs.symm (hl (d, s) (List.mem_cons_self _ _))
        · exact pass2_elsewhere_pos t c rest cnt hrest h

theorem pass2_exists_elsewhere (t : List Char) (c : Char) :
    ∀ (l : List (Char × GuessLetterState)) (cnt : Char → Int),
      (∃ p ∈ l, p.1 = c) → (∀ p ∈ l, p.1 = c → p.2 ≠ GuessLetterState.CORRECT) →
      c ∈ t → 0 < cnt c →
      ∃ p ∈ pass2 t l cnt, p.1 = c ∧ p.2 ≠ GuessLetterState.INCORRECT
  | [], cnt, hex, hnc, hmem, hpos => by simp at hex
  | (d, s) :: rest, cnt, hex, hnc, hmem, hpos => by
    by_cases hdc : d = c
    · subst hdc
      have h1 : s ≠ GuessLetterState.CORRECT := hnc (d, s) (List.mem_cons_self _ _) rfl
      simp only [pass2, if_neg h1, if_pos (⟨hmem, hpos⟩ : d ∈ t ∧ 0 < cnt d)]
      exact ⟨(d, GuessLetterState.ELSEWHERE), List.mem_cons_self _ _, rfl, by simp⟩
    · have hex2 : ∃ p ∈ rest, p.1 = c := by
        rcases hex with ⟨p, hp, hpc⟩
        rcases List.mem_cons.mp hp with h | h
        · rw [h] at hpc
          exact absurd hpc hdc
        · exact ⟨p, h, hpc⟩
      have hnc2 : ∀ p ∈ rest, p.1 = c → p.2 ≠ GuessLetterState.CORRECT :=
        fun p hp => hnc p (List.mem_cons_of_mem _ hp)
      by_cases h1 : s = GuessLetterState.CORRECT
      · simp only [pass2, if_pos h1]
        rcases pass2_exists_elsewhere t c rest cnt hex2 hnc2 hmem hpos with ⟨p, hp, hpp⟩
        exact ⟨p, List.mem_cons_of_mem _ hp, hpp⟩
      · by_cases h2 : d ∈ t ∧ 0 < cnt d
        · simp only [pass2, if_neg h1, if_pos h2]
          have hcd : c ≠ d := Ne.symm hdc
          have hpos2 : 0 < decr cnt d c := by
            simp only [decr, if_neg hcd]
            exact hpos
          rcases pass2_exists_elsewhere t c rest (decr cnt d) hex2 hnc2 hmem hpos2 with ⟨p, hp, hpp⟩
          exact ⟨p, List.mem_cons_of_mem _ hp, hpp⟩
        · simp only [pass2, if_neg h1, if_neg h2]
          rcases pass2_exists_elsewhere t c rest cnt hex2 hnc2 hmem hpos with ⟨p, hp, hpp⟩
          exact ⟨p, List.mem_cons_of_mem _ hp, hpp⟩

theorem pass2_noElseAfterInc (t : List Char) :
    ∀ (l : List (Char × GuessLetterState)) (cnt : Char → Int),
      (∀ p ∈ l, p.2 ≠ GuessLetterState.ELSEWHERE) → NoElseAfterInc (pass2 t l cnt)
  | [], cnt, hl => by simp [pass2, NoElseAfterInc]
  | (d, s) :: rest, cnt, hl => by
    have hrest : ∀ p ∈ rest, p.2 ≠ GuessLetterState.ELSEWHERE :=
      fun p hp => hl p (List.mem_cons_of_mem _ hp)
    by_cases h1 : s = GuessLetterState.CORRECT
    · simp only [pass2, if_pos h1, NoElseAfterInc]
      refine ⟨fun hs => ?_, pass2_noElseAfterInc t rest cnt hrest⟩
      rw [h1] at hs
      simp at hs
    · by_cases h2 : d ∈ t ∧ 0 < cnt d
      · simp only [pass2, if_neg h1, if_pos h2, NoElseAfterInc]
        exact ⟨fun hs => by simp at hs, pass2_noElseAfterInc t rest (decr cnt d) hrest⟩
      · simp only [pass2, if_neg h1, if_neg h2, NoElseAfterInc]
        refine ⟨fun hs q hq hqd hqe => ?_, pass2_noElseAfterInc t rest cnt hrest⟩
        have hq2 : (d, GuessLetterState.ELSEWHERE) ∈ pass2 t rest cnt := by
          rcases q with ⟨q1, q2⟩
          simp only at hqd hqe
          rw [hqd, hqe] at hq
          exact hq
        exact h2 (pass2_elsewhere_pos t d rest cnt hrest hq2)

theorem pass2_niCount (t : List Char) (c : Char) :
    ∀ (l : List (Char × GuessLetterState)) (cnt : Char → Int),
      (∀ p ∈ l, p.2 ≠ GuessLetterState.ELSEWHERE) → 0 ≤ cnt c →
      (niCount c (pass2 t l cnt) : Int) ≤
        (ccount c GuessLetterState.CORRECT l : Int) + cnt c
  | [], cnt, hl, hpos => by
    simp [pass2, niCount, ccount]
    omega
  | (d, s) :: rest, cnt, hl, hpos => by
    have hrest : ∀ p ∈ rest, p.2 ≠ GuessLetterState.ELSEWHERE :=
      fun p hp => hl p (List.mem_cons_of_mem _ hp)
    by_cases h1 : s = GuessLetterState.CORRECT
    · subst h1
      have ih := pass2_niCount t c rest cnt hrest hpos
      simp only [pass2, if_pos rfl, niCount, ccount]
      by_cases hdc : d = c <;> simp [hdc] <;> omega
    · by_cases h2 : d ∈ t ∧ 0 < cnt d
      · by_cases hdc : d = c
        · subst hdc
          have hpos2 : 0 ≤ decr cnt d d := by
            simp only [decr, if_pos rfl]
            omega
          have ih := pass2_niCount t d rest (decr cnt d) hrest hpos2
          have hdec : decr cnt d d = cnt d - 1 := by simp [decr]
          rw [hdec] at ih
          simp only [pass2, if_neg h1, if_pos h2, niCount, ccount]
          simp [h1]
          omega
        · have hcd : c ≠ d := Ne.symm hdc
          have hpos2 : 0 ≤ decr cnt d c := by
            simp only [decr, if_neg hcd]
            exact hpos
          have ih := pass2_niCount t c rest (decr cnt d) hrest hpos2
          have hdec : decr cnt d c = cnt c := by simp [decr, hcd]
          rw [hdec] at ih
          simp only [pass2, if_neg h1, if_pos h2, niCount, ccount]
          simp [hdc, h1]
          omega
      · have ih := pass2_niCount t c rest cnt hrest hpos
        have hsInc : s = GuessLetterState.INCORRECT := by
          cases s with
          | CORRECT => exact absurd rfl h1
          | ELSEWHERE =>
            exact absurd rfl (hl (d, GuessLetterState.ELSEWHERE) (List.mem_cons_self _ _))
          | INCORRECT => rfl
        subst hsInc
        simp only [pass2, if_neg h1, if_neg h2, niCount, ccount]
        simp
        omega

/-! ### Counting helpers -/

theorem ccount_eq_zero (c : Char) (st : GuessLetterState) :
    ∀ l : List (Char × GuessLetterState), (c, st) ∉ l → ccount c st l = 0
  | [], _ => rfl
  | p :: rest, h => by
    have h1 : (c, st) ≠ p := fun he => h (he ▸ List.mem_cons_self _ _)
    have h2 : (c, st) ∉ rest := fun he => h (List.mem_cons_of_mem _ he)
    have h3 : ¬(p.1 = c ∧ p.2 = st) := by
      rintro ⟨ha, hb⟩
      exact h1 (by rcases p with ⟨p1, p2⟩; simp only at ha hb; rw [ha, hb])
    simp only [ccount, if_neg h3, ccount_eq_zero c st rest h2]

theorem niCount_pos (c : Char) :
    ∀ l : List (Char × GuessLetterState),
      (∃ p ∈ l, p.1 = c ∧ p.2 ≠ GuessLetterState.INCORRECT) → 0 < niCount c l
  | [], h => by simp at h
  | p :: rest, h => by
    rcases h with ⟨q, hq, hqprop⟩
    rcases List.mem_cons.mp hq with hh | hh
    · rw [hh] at hqprop
      simp only [niCount, if_pos hqprop]
      omega
    · have ih := niCount_pos c rest ⟨q, hh, hqprop⟩
      simp only [niCount]
      omega

theorem niCount_append (c : Char) :
    ∀ l1 l2 : List (Char × GuessLetterState),
      niCount c (l1 ++ l2) = niCount c l1 + niCount c l2
  | [], l2 => by simp [niCount]
  | p :: rest, l2 => by
    have ih := niCount_append c rest l2
    simp only [List.cons_append, niCount, List.append_eq] at ih ⊢
    omega

theorem niCount_add_ccount_inc (c : Char) :
    ∀ l : List (Char × GuessLetterState),
      niCount c l + ccount c GuessLetterState.INCORRECT l = (l.map Prod.fst).count c
  | [] => rfl
  | p :: rest => by
    have ih := niCount_add_ccount_inc c rest
    simp only [niCount, ccount, List.map_cons, List.count_cons, ih]
    rcases p with ⟨p1, p2⟩
    by_cases h1 : p1 = c
    · subst h1
      by_cases h2 : p2 = GuessLetterState.INCORRECT <;> simp [h2] <;> omega
    · simp [h1, Ne.symm h1]
      omega

/-! ### The scorer as a whole -/

theorem gls_map_fst (g t : List Char) :
    (get_guess_letter_states g t).map Prod.fst = g := by
  rw [get_guess_letter_states, pass2_map_fst, pass1States_map_fst]

theorem gls_noElseAfterInc (g t : List Char) :
    NoElseAfterInc (get_guess_letter_states g t) :=
  pass2_noElseAfterInc t _ _ (pass1States_snd t g 0)

theorem gls_elsewhere_mem (g t : List Char) (c : Char)
    (h : (c, GuessLetterState.ELSEWHERE) ∈ get_guess_letter_states g t) : c ∈ t :=
  (pass2_elsewhere_pos t c _ _ (pass1States_snd t g 0) h).1

/-- Core of claim C10: the scorer never hands a character more CORRECT plus
ELSEWHERE marks than the target has copies of it. -/
theorem gls_niCount_le (g t : List Char) (c : Char) :
    niCount c (get_guess_letter_states g t) ≤ t.count c := by
  have hcc := ccount_correct_le t c g 0
  simp only [List.drop_zero] at hcc
  have hcnt := pass1Counter_apply t c g 0 (initCounter t)
  have hpos : 0 ≤ pass1Counter t 0 g (initCounter t) c := by
    rw [hcnt]
    simp only [initCounter]
    omega
  have h := pass2_niCount t c (pass1States t 0 g) (pass1Counter t 0 g (initCounter t))
    (pass1States_snd t g 0) hpos
  rw [hcnt] at h
  simp only [initCounter] at h
  rw [get_guess_letter_states]
  omega

/-- If a character occurs in both the guess and the target, the scorer gives
at least one of its occurrences a CORRECT or ELSEWHERE mark. -/
theorem gls_exists_nonInc (g t : List Char) (c : Char) (hg : c ∈ g) (ht : c ∈ t) :
    ∃ p ∈ get_guess_letter_states g t, p.1 = c ∧ p.2 ≠ GuessLetterState.INCORRECT := by
  by_cases hcor : (c, GuessLetterState.CORRECT) ∈ pass1States t 0 g
  · exact ⟨(c, GuessLetterState.CORRECT), pass2_mem_correct t c _ _ hcor, rfl, by simp⟩
  · have hex : ∃ p ∈ pass1States t 0 g, p.1 = c := by
      have hm : c ∈ (pass1States t 0 g).map Prod.fst := by
        rw [pass1States_map_fst]
        exact hg
      rcases List.mem_map.mp hm with ⟨p, hp, hpc⟩
      exact ⟨p, hp, hpc⟩
    have hnc : ∀ p ∈ pass1States t 0 g, p.1 = c → p.2 ≠ GuessLetterState.CORRECT := by
      intro p hp hpc hcontra
      apply hcor
      have hpe : p = (c, GuessLetterState.CORRECT) := by
        rcases p with ⟨p1, p2⟩
        simp only at hpc hcontra
        rw [hpc, hcontra]
      rwa [hpe] at hp
    have hcc0 : ccount c GuessLetterState.CORRECT (pass1States t 0 g) = 0 :=
      ccount_eq_zero c GuessLetterState.CORRECT _ hcor
    have hpos : 0 < pass1Counter t 0 g (initCounter t) c := by
      rw [pass1Counter_apply, hcc0]
      simp only [initCounter]
      have := List.count_pos_iff.mpr ht
      omega
    exact pass2_exists_elsewhere t c _ _ hex hnc ht hpos

/-! ### Positional facts about the scorer -/

theorem gls_getElem?_fst (g t : List Char) (j : Nat) :
    ((get_guess_letter_states g t)[j]?).map Prod.fst = g[j]? := by
  have h := List.getElem?_map Prod.fst (get_guess_letter_states g t) j
  rw [gls_map_fst] at h
  exact h.symm

theorem gls_getElem?_exists (g t : List Char) (j : Nat) (c : Char) (h : g[j]? = some c) :
    ∃ s, (get_guess_letter_states g t)[j]? = some (c, s) := by
  have hf := gls_getElem?_fst g t j
  cases ho : (get_guess_letter_states g t)[j]? with
  | none =>
    rw [ho] at hf
    rw [h] at hf
    simp at hf
  | some p =>
    rw [ho, h] at hf
    rcases p with ⟨p1, p2⟩
    simp only [Option.map_some', Option.some.injEq] at hf
    exact ⟨p2, by rw [hf]⟩

theorem gls_correct_iff (g t : List Char) (j : Nat) (c : Char) :
    (get_guess_letter_states g t)[j]? = some (c, GuessLetterState.CORRECT) ↔
      g[j]? = some c ∧ t[j]? = some c := by
  rw [get_guess_letter_states, pass2_correct_iff, pass1States_getElem?]
  simp only [Nat.zero_add]
  cases hg : g[j]? with
  | none => simp
  | some d =>
    by_cases hc : t[j]? = some d
    · simp only [if_pos hc, Option.map_some', Option.some.injEq, Prod.mk.injEq]
      constructor
      · rintro ⟨rfl, -⟩
        exact ⟨rfl, hc⟩
      · rintro ⟨rfl, -⟩
        simp
    · simp only [if_neg hc, Option.map_some', Option.some.injEq, Prod.mk.injEq]
      constructor
      · rintro ⟨-, habs⟩
        simp at habs
      · rintro ⟨rfl, hct⟩
        exact absurd hct hc

theorem niCount_two_pos (c : Char) (l : List (Char × GuessLetterState)) (i j : Nat)
    (hij : i < j) (s1 s2 : GuessLetterState)
    (h1 : l[i]? = some (c, s1)) (h2 : l[j]? = some (c, s2))
    (hs1 : s1 ≠ GuessLetterState.INCORRECT) (hs2 : s2 ≠ GuessLetterState.INCORRECT) :
    2 ≤ niCount c l := by
  have hmem1 : (c, s1) ∈ l.take j :=
    List.getElem?_mem (by rw [List.getElem?_take_of_lt hij]; exact h1)
  have hmem2 : (c, s2) ∈ l.drop j := by
    have hd : (l.drop j)[0]? = l[j]? := by
      simp [List.getElem?_drop]
    exact List.getElem?_mem (by rw [hd]; exact h2)
  have p1 := niCount_pos c (l.take j) ⟨(c, s1), hmem1, rfl, hs1⟩
  have p2 := niCount_pos c (l.drop j) ⟨(c, s2), hmem2, rfl, hs2⟩
  have happ := niCount_append c (l.take j) (l.drop j)
  rw [List.take_append_drop] at happ
  omega

theorem count_two_pos (l : List Char) (i j : Nat) (c : Char)
    (hij : i < j) (h1 : l[i]? = some c) (h2 : l[j]? = some c) : 2 ≤ l.count c := by
  have hmem1 : c ∈ l.take j :=
    List.getElem?_mem (by rw [List.getElem?_take_of_lt hij]; exact h1)
  have hmem2 : c ∈ l.drop j := by
    have hd : (l.drop j)[0]? = l[j]? := by
      simp [List.getElem?_drop]
    exact List.getElem?_mem (by rw [hd]; exact h2)
  have p1 := List.count_pos_iff.mpr hmem1
  have p2 := List.count_pos_iff.mpr hmem2
  have happ := List.count_append c (l.take j) (l.drop j)
  rw [List.take_append_drop] at happ
  omega

/-! ### The implementation agrees with the scorer as the spec words it -/

theorem specPool1_apply (t : List Char) (c : Char) :
    ∀ (g : List Char) (i : Nat) (pool : Char → Nat),
      specPool1 t i g pool c =
        pool c - ccount c GuessLetterState.CORRECT (pass1States t i g)
  | [], i, pool => by simp [specPool1, pass1States, ccount]
  | d :: ds, i, pool => by
    have h := specPool1_apply t c ds (i + 1)
    by_cases hc : t[i]? = some d
    · rw [specPool1, if_pos hc, h _, pass1States, ccount, if_pos hc]
      by_cases hdc : d = c
      · subst hdc
        simp only [if_pos rfl]
        simp
        omega
      · have hcd : c ≠ d := Ne.symm hdc
        simp [hdc, hcd]
    · rw [specPool1, if_neg hc, h pool, pass1States, ccount, if_neg hc]
      simp

theorem pass2_eq_specPass2 (t : List Char) :
    ∀ (g : List Char) (i : Nat) (cnt : Char → Int) (pool : Char → Nat),
      (∀ c, cnt c = (pool c : Int)) → (∀ c, 0 < cnt c → c ∈ t) →
      pass2 t (pass1States t i g) cnt = specPass2 t i g pool
  | [], i, cnt, pool, h1, h2 => by simp [pass1States, pass2, specPass2]
  | d :: ds, i, cnt, pool, h1, h2 => by
    by_cases hc : t[i]? = some d
    · simp only [pass1States, if_pos hc, pass2, specPass2, eq_self_iff_true, if_true]
      rw [pass2_eq_specPass2 t ds (i + 1) cnt pool h1 h2]
    · simp only [pass1States, if_neg hc, pass2, specPass2]
      have hiff : (d ∈ t ∧ 0 < cnt d) ↔ 0 < pool d := by
        constructor
        · rintro ⟨hm, hp⟩
          have := h1 d
          omega
        · intro hp
          have hcnt : 0 < cnt d := by
            rw [h1 d]
            exact_mod_cast hp
          exact ⟨h2 d hcnt, hcnt⟩
      by_cases hp : 0 < pool d
      · rw [if_neg (by simp), if_pos (hiff.mpr hp), if_pos hp]
        have h1d : 0 < cnt d := by
          rw [h1 d]
          exact_mod_cast hp
        congr 1
        apply pass2_eq_specPass2
        · intro c
          by_cases hcd : c = d
          · rw [hcd]
            simp [decr]
            have h1' := h1 d
            omega
          · simp only [decr, if_neg hcd]
            exact h1 c
        · intro c hc2
          apply h2
          by_cases hcd : c = d
          · rw [hcd] at hc2 ⊢
            simp [decr] at hc2
            omega
          · simp only [decr, if_neg hcd] at hc2
            exact hc2
      · rw [if_neg (by simp), if_neg (fun hcontra => hp (hiff.mp hcontra)), if_neg hp]
        rw [pass2_eq_specPass2 t ds (i + 1) cnt pool h1 h2]

/-- The implementation computes exactly the spec's two-pass score. -/
theorem gls_eq_specScore (g t : List Char) :
    get_guess_letter_states g t = specScore g t := by
  rw [get_guess_letter_states, specScore]
  apply pass2_eq_specPass2
  · intro c
    rw [pass1Counter_apply, specPool1_apply]
    have h := ccount_correct_le t c g 0
    simp only [List.drop_zero] at h
    simp only [initCounter]
    omega
  · intro c hpos
    rw [pass1Counter_apply] at hpos
    simp only [initCounter] at hpos
    have h : 0 < t.count c := by omega
    exact List.count_pos_iff.mp h

/-- An empty target makes every mark INCORRECT. -/
theorem gls_empty_target_aux :
    ∀ (g : List Char) (i : Nat) (cnt : Char → Int),
      pass2 [] (pass1States [] i g) cnt =
        g.map fun c => (c, GuessLetterState.INCORRECT)
  | [], i, cnt => rfl
  | d :: ds, i, cnt => by
    simp only [pass1States]
    rw [if_neg (by simp)]
    simp only [pass2]
    rw [if_neg (by simp), if_neg (by simp [List.not_mem_nil])]
    simp only [List.map_cons]
    rw [gls_empty_target_aux ds (i + 1) cnt]

/-! ### The alphabet-knowledge update -/

theorem stepOK_refl (a : AlphabetLetterState) : stepOK a a := by
  cases a <;> simp [stepOK]

theorem stepOK_trans (a b c : AlphabetLetterState) (hab : stepOK a b) (hbc : stepOK b c) :
    stepOK a c := by
  cases a <;> cases b <;> cases c <;> simp_all [stepOK]

theorem stepOK_unused_back (a : AlphabetLetterState)
    (h : stepOK a AlphabetLetterState.UNUSED) :
    a = AlphabetLetterState.UNUSED ∨ a = AlphabetLetterState.NOT_GUESSED := by
  cases a <;> simp_all [stepOK]

theorem update_alphabet_state_other (st : Char → AlphabetLetterState) (c : Char)
    (s : GuessLetterState) (st2 : Char → AlphabetLetterState)
    (h : update_alphabet_state st c s = some st2) (d : Char) (hd : d ≠ c) :
    st2 d = st d := by
  cases s with
  | CORRECT =>
    have hf := Option.some.inj h
    rw [← hf]
    simp [hd]
  | ELSEWHERE =>
    simp only [update_alphabet_state] at h
    by_cases h1 : st c ≠ AlphabetLetterState.FOUND
    · rw [if_pos h1] at h
      by_cases h2 : st c = AlphabetLetterState.UNUSED
      · rw [if_pos h2] at h
        exact Option.noConfusion h
      · rw [if_neg h2] at h
        have hf := Option.some.inj h
        rw [← hf]
        simp [hd]
    · rw [if_neg h1] at h
      have hf := Option.some.inj h
      rw [← hf]
  | INCORRECT =>
    simp only [update_alphabet_state] at h
    by_cases h1 : st c = AlphabetLetterState.NOT_GUESSED
    · rw [if_pos h1] at h
      have hf := Option.some.inj h
      rw [← hf]
      simp [hd]
    · rw [if_neg h1] at h
      have hf := Option.some.inj h
      rw [← hf]

theorem update_correct_result (st : Char → AlphabetLetterState) (d : Char)
    (st1 : Char → AlphabetLetterState)
    (h : update_alphabet_state st d GuessLetterState.CORRECT = some st1) :
    st1 d = AlphabetLetterState.FOUND := by
  have hf := Option.some.inj h
  rw [← hf]
  simp

theorem update_elsewhere_result (st : Char → AlphabetLetterState) (d : Char)
    (st1 : Char → AlphabetLetterState)
    (h : update_alphabet_state st d GuessLetterState.ELSEWHERE = some st1) :
    st1 d = AlphabetLetterState.FOUND ∨ st1 d = AlphabetLetterState.FOUND_ELSEWHERE := by
  simp only [update_alphabet_state] at h
  by_cases h1 : st d ≠ AlphabetLetterState.FOUND
  · rw [if_pos h1] at h
    by_cases h2 : st d = AlphabetLetterState.UNUSED
    · rw [if_pos h2] at h
      exact Option.noConfusion h
    · rw [if_neg h2] at h
      have hf := Option.some.inj h
      right
      rw [← hf]
      simp
  · rw [if_neg h1] at h
    have hf := Option.some.inj h
    push_neg at h1
    left
    rw [← hf]
    exact h1

theorem update_alphabet_state_stepOK (st : Char → AlphabetLetterState) (c : Char)
    (s : GuessLetterState) (st2 : Char → AlphabetLetterState)
    (h : update_alphabet_state st c s = some st2) (d : Char) :
    stepOK (st d) (st2 d) := by
  by_cases hd : d = c
  · rw [hd]
    cases s with
    | CORRECT =>
      rw [update_correct_result st c st2 h]
      cases hst : st c <;> simp [stepOK]
    | ELSEWHERE =>
      rcases update_elsewhere_result st c st2 h with h2 | h2 <;> rw [h2]
      · cases hst : st c <;> simp [stepOK]
      · simp only [update_alphabet_state] at h
        by_cases h1 : st c ≠ AlphabetLetterState.FOUND
        · rw [if_pos h1] at h
          by_cases h3 : st c = AlphabetLetterState.UNUSED
          · rw [if_pos h3] at h
            exact Option.noConfusion h
          · cases hst : st c <;> simp_all [stepOK]
        · push_neg at h1
          simp_all [stepOK]
    | INCORRECT =>
      simp only [update_alphabet_state] at h
      by_cases h1 : st c = AlphabetLetterState.NOT_GUESSED
      · rw [if_pos h1] at h
        have hf := Option.some.inj h
        rw [← hf, h1]
        simp [stepOK]
      · rw [if_neg h1] at h
        have hf := Option.some.inj h
        rw [← hf]
        exact stepOK_refl _
  · rw [update_alphabet_state_other st c s st2 h d hd]
    exact stepOK_refl _

theorem update_alphabet_states_stepOK :
    ∀ (l : List (Char × GuessLetterState)) (st st2 : Char → AlphabetLetterState),
      update_alphabet_states st l = some st2 → ∀ d, stepOK (st d) (st2 d)
  | [], st, st2, h, d => by
    have hf : st = st2 := Option.some.inj h
    rw [← hf]
    exact stepOK_refl _
  | p :: rest, st, st2, h, d => by
    cases hstep : update_alphabet_state st p.1 p.2 with
    | none =>
      simp only [update_alphabet_states, hstep] at h
      exact Option.noConfusion h
    | some st1 =>
      simp only [update_alphabet_states, hstep] at h
      exact stepOK_trans _ _ _ (update_alphabet_state_stepOK st p.1 p.2 st1 hstep d)
        (update_alphabet_states_stepOK rest st1 st2 h d)

theorem update_states_other :
    ∀ (l : List (Char × GuessLetterState)) (st st2 : Char → AlphabetLetterState)
      (c : Char), update_alphabet_states st l = some st2 →
      (∀ p ∈ l, p.1 ≠ c) → st2 c = st c
  | [], st, st2, c, h, _ => by
    have hf : st = st2 := Option.some.inj h
    rw [← hf]
  | p :: rest, st, st2, c, h, hl => by
    cases hstep : update_alphabet_state st p.1 p.2 with
    | none =>
      simp only [update_alphabet_states, hstep] at h
      exact Option.noConfusion h
    | some st1 =>
      simp only [update_alphabet_states, hstep] at h
      have h1 : st1 c = st c :=
        update_alphabet_state_other st p.1 p.2 st1 hstep c
          (fun he => hl p (List.mem_cons_self _ _) he.symm)
      rw [update_states_other rest st1 st2 c h
        (fun q hq => hl q (List.mem_cons_of_mem _ hq)), h1]

theorem update_unused_all_inc :
    ∀ (l : List (Char × GuessLetterState)) (st st2 : Char → AlphabetLetterState)
      (c : Char), update_alphabet_states st l = some st2 →
      st2 c = AlphabetLetterState.UNUSED →
      ∀ p ∈ l, p.1 = c → p.2 = GuessLetterState.INCORRECT
  | [], st, st2, c, h, hc, p, hp, hpc => by simp at hp
  | (d, s) :: rest, st, st2, c, h, hc, p, hp, hpc => by
    cases hstep : update_alphabet_state st d s with
    | none =>
      simp only [update_alphabet_states, hstep] at h
      exact Option.noConfusion h
    | some st1 =>
      simp only [update_alphabet_states, hstep] at h
      rcases List.mem_cons.mp hp with hh | hh
      · have hdc : d = c := by
          rw [hh] at hpc
          exact hpc
        rw [hh]
        show s = GuessLetterState.INCORRECT
        cases s with
        | CORRECT =>
          exfalso
          have h1 := update_correct_result st d st1 hstep
          have h2 := update_alphabet_states_stepOK rest st1 st2 h d
          rw [h1] at h2
          rw [hdc, hc] at h2
          simp [stepOK] at h2
        | ELSEWHERE =>
          exfalso
          have h2 := update_alphabet_states_stepOK rest st1 st2 h d
          rcases update_elsewhere_result st d st1 hstep with h1 | h1 <;>
            rw [h1] at h2 <;> rw [hdc, hc] at h2 <;> simp [stepOK] at h2
        | INCORRECT => rfl
      · exact update_unused_all_inc rest st1 st2 c h hc p hh hpc

theorem update_alphabet_states_eq_fold :
    ∀ (l : List (Char × GuessLetterState)) (st : Char → AlphabetLetterState),
      NoElseAfterInc l →
      (∀ c, st c = AlphabetLetterState.UNUSED →
        ∀ p ∈ l, p.1 = c → p.2 ≠ GuessLetterState.ELSEWHERE) →
      update_alphabet_states st l = some (l.foldl specAlphaStep st)
  | [], st, _, _ => rfl
  | (c, s) :: rest, st, hne, hinv => by
    obtain ⟨hhead, htail⟩ := hne
    have hstep : update_alphabet_state st c s = some (specAlphaStep st (c, s)) := by
      cases s with
      | CORRECT => rfl
      | ELSEWHERE =>
        simp only [update_alphabet_state]
        by_cases h1 : st c ≠ AlphabetLetterState.FOUND
        · rw [if_pos h1]
          have h2 : st c ≠ AlphabetLetterState.UNUSED := by
            intro habs
            exact hinv c habs (c, GuessLetterState.ELSEWHERE)
              (List.mem_cons_self _ _) rfl rfl
          rw [if_neg h2]
          congr 1
          funext d
          by_cases hd : d = c
          · subst hd
            simp [specAlphaStep]
            rw [if_neg h1]
          · simp [specAlphaStep, hd]
        · rw [if_neg h1]
          push_neg at h1
          congr 1
          funext d
          by_cases hd : d = c
          · subst hd
            simp [specAlphaStep, h1]
          · simp [specAlphaStep, hd]
      | INCORRECT =>
        simp only [update_alphabet_state]
        by_cases h1 : st c = AlphabetLetterState.NOT_GUESSED
        · rw [if_pos h1]
          congr 1
          funext d
          by_cases hd : d = c
          · subst hd
            simp [specAlphaStep, h1]
          · simp [specAlphaStep, hd]
        · rw [if_neg h1]
          congr 1
          funext d
          by_cases hd : d = c
          · subst hd
            simp [specAlphaStep, h1]
          · simp [specAlphaStep, hd]
    have hinv2 : ∀ c2, specAlphaStep st (c, s) c2 = AlphabetLetterState.UNUSED →
        ∀ p ∈ rest, p.1 = c2 → p.2 ≠ GuessLetterState.ELSEWHERE := by
      intro c2 hc2 p hp hpc
      by_cases hcc : c2 = c
      · subst hcc
        cases s with
        | CORRECT => simp [specAlphaStep] at hc2
        | ELSEWHERE =>
          simp only [specAlphaStep, if_pos rfl] at hc2
          by_cases hf : st c2 = AlphabetLetterState.FOUND <;> simp [hf] at hc2
        | INCORRECT =>
          exact hhead rfl p hp hpc
      · have : specAlphaStep st (c, s) c2 = st c2 := by
          simp [specAlphaStep, hcc]
        rw [this] at hc2
        exact hinv c2 hc2 p (List.mem_cons_of_mem _ hp) hpc
    simp only [update_alphabet_states, hstep, List.foldl_cons]
    exact update_alphabet_states_eq_fold rest (specAlphaStep st (c, s)) htail hinv2

/-- On any alphabet state satisfying the UNUSED-means-absent invariant, the
update for a freshly scored guess never hits the assert, and computes the
plain fold of the spec rule. -/
theorem update_gls_eq_fold (g t : List Char) (st : Char → AlphabetLetterState)
    (hok : AlphaOK t st) :
    update_alphabet_states st (get_guess_letter_states g t) =
      some ((get_guess_letter_states g t).foldl specAlphaStep st) := by
  apply update_alphabet_states_eq_fold _ _ (gls_noElseAfterInc g t)
  intro c hcU p hp hpc hpE
  have hmem : (c, GuessLetterState.ELSEWHERE) ∈ get_guess_letter_states g t := by
    rcases p with ⟨p1, p2⟩
    simp only at hpc hpE
    rw [hpc, hpE] at hp
    exact hp
  have hct := gls_elsewhere_mem g t c hmem
  have h1 := hok c hcU
  have h2 := List.count_pos_iff.mpr hct
  omega

/-- The UNUSED-means-absent invariant survives folding in one scored guess. -/
theorem alphaOK_preserved (g t : List Char) (st st2 : Char → AlphabetLetterState)
    (hok : AlphaOK t st)
    (h : update_alphabet_states st (get_guess_letter_states g t) = some st2) :
    AlphaOK t st2 := by
  intro c hc
  by_cases hcg : c ∈ g
  · by_cases hct : c ∈ t
    · exfalso
      rcases gls_exists_nonInc g t c hcg hct with ⟨p, hp, hpc, hps⟩
      exact hps (update_unused_all_inc _ st st2 c h hc p hp hpc)
    · exact List.count_eq_zero.mpr hct
  · have hnone : ∀ p ∈ get_guess_letter_states g t, p.1 ≠ c := by
      intro p hp hpc
      apply hcg
      rw [← gls_map_fst g t]
      exact List.mem_map.mpr ⟨p, hp, hpc⟩
    have hsame := update_states_other _ st st2 c h hnone
    rw [hsame] at hc
    exact hok c hc

/-! ### The guess_word state machine -/

theorem guess_word_finished (g : WordleGame) (w : List Char)
    (h : g.game_state ≠ GameState.GUESSING) :
    guess_word g w = Except.error GuessError.GameAlreadyFinishedError := by
  rw [guess_word, if_pos h]

theorem guess_word_invalid (g : WordleGame) (w : List Char)
    (h1 : g.game_state = GameState.GUESSING) (h2 : is_valid_word g w = false) :
    guess_word g w = Except.error GuessError.InvalidGuessWordError := by
  rw [guess_word, if_neg (fun hn => hn h1), if_pos h2]

theorem guess_word_assert (g : WordleGame) (w : List Char)
    (h1 : g.game_state = GameState.GUESSING) (h2 : is_valid_word g w = true)
    (hupd : update_alphabet_states g.alphabet_states
      (get_guess_letter_states w g.target) = none) :
    guess_word g w = Except.error GuessError.AssertionError := by
  rw [guess_word, if_neg (fun hn => hn h1), if_neg (by simp [h2]), hupd]

theorem guess_word_ok (g : WordleGame) (w : List Char)
    (h1 : g.game_state = GameState.GUESSING) (h2 : is_valid_word g w = true)
    (alpha2 : Char → AlphabetLetterState)
    (hupd : update_alphabet_states g.alphabet_states
      (get_guess_letter_states w g.target) = some alpha2) :
    guess_word g w =
      if w = g.target then
        Except.ok ({ g with
          guesses := g.guesses ++ [mkGuess w g.target]
          alphabet_states := alpha2
          game_state := GameState.SUCCEEDED }, true)
      else if ((g.guesses ++ [mkGuess w g.target]).length : Int) = g.guess_limit then
        Except.ok ({ g with
          guesses := g.guesses ++ [mkGuess w g.target]
          alphabet_states := alpha2
          game_state := GameState.FAILED }, true)
      else
        Except.ok ({ g with
          guesses := g.guesses ++ [mkGuess w g.target]
          alphabet_states := alpha2 }, false) := by
  rw [guess_word, if_neg (fun hn => hn h1), if_neg (by simp [h2]), hupd]

theorem guess_word_ok_inv (g g' : WordleGame) (w : List Char) (b : Bool)
    (h : guess_word g w = Except.ok (g', b)) :
    g.game_state = GameState.GUESSING ∧ is_valid_word g w = true ∧
    update_alphabet_states g.alphabet_states (get_guess_letter_states w g.target) =
      some g'.alphabet_states ∧
    g'.target = g.target ∧ g'.guess_limit = g.guess_limit ∧
    g'.word_dictionary = g.word_dictionary ∧
    g'.guesses = g.guesses ++ [mkGuess w g.target] ∧
    (if w = g.target then g'.game_state = GameState.SUCCEEDED ∧ b = true
     else if ((g.guesses ++ [mkGuess w g.target]).length : Int) = g.guess_limit then
       g'.game_state = GameState.FAILED ∧ b = true
     else g'.game_state = GameState.GUESSING ∧ b = false) := by
  have h1 : g.game_state = GameState.GUESSING := by
    by_contra hc
    rw [guess_word_finished g w hc] at h
    exact Except.noConfusion h
  have h2 : is_valid_word g w = true := by
    cases hv : is_valid_word g w
    · rw [guess_word_invalid g w h1 hv] at h
      exact Except.noConfusion h
    · rfl
  cases hupd : update_alphabet_states g.alphabet_states
      (get_guess_letter_states w g.target) with
  | none =>
    rw [guess_word_assert g w h1 h2 hupd] at h
    exact Except.noConfusion h
  | some alpha2 =>
    rw [guess_word_ok g w h1 h2 alpha2 hupd] at h
    by_cases h3 : w = g.target
    · rw [if_pos h3] at h
      injection h with h'
      injection h' with hg hb
      subst hg
      exact ⟨h1, h2, rfl, rfl, rfl, rfl, rfl, by rw [if_pos h3]; exact ⟨rfl, hb.symm⟩⟩
    · rw [if_neg h3] at h
      by_cases h4 : ((g.guesses ++ [mkGuess w g.target]).length : Int) = g.guess_limit
      · rw [if_pos h4] at h
        injection h with h'
        injection h' with hg hb
        subst hg
        exact ⟨h1, h2, rfl, rfl, rfl, rfl, rfl,
          by rw [if_neg h3, if_pos h4]; exact ⟨rfl, hb.symm⟩⟩
      · rw [if_neg h4] at h
        injection h with h'
        injection h' with hg hb
        subst hg
        exact ⟨h1, h2, rfl, rfl, rfl, rfl, rfl,
          by rw [if_neg h3, if_neg h4]; exact ⟨h1, hb.symm⟩⟩

/-! ### Invariants of reachable sessions -/

theorem reachable_alphaOK (g : WordleGame) (hr : ReachableGame g) :
    AlphaOK g.target g.alphabet_states := by
  induction hr with
  | init limit dict target h =>
    intro c hc
    exact AlphabetLetterState.noConfusion hc
  | step g g' w b hg h ih =>
    obtain ⟨h1, h2, hupd, htarget, -, -, -, -⟩ := guess_word_ok_inv g g' w b h
    rw [htarget]
    exact alphaOK_preserved w g.target g.alphabet_states g'.alphabet_states ih hupd

theorem reachable_len_lt (g : WordleGame) (hr : ReachableGame g) :
    g.game_state = GameState.GUESSING → 1 ≤ g.guess_limit →
    (g.guesses.length : Int) < g.guess_limit := by
  induction hr with
  | init limit dict target h =>
    intro hstate hlim
    simp only [initGame] at hlim ⊢
    simp only [List.length_nil, Nat.cast_zero]
    omega
  | step g g' w b hg h ih =>
    intro hstate hlim
    obtain ⟨h1, h2, hupd, -, hlimit, -, hguesses, hcases⟩ := guess_word_ok_inv g g' w b h
    by_cases h3 : w = g.target
    · rw [if_pos h3] at hcases
      rw [hcases.1] at hstate
      exact GameState.noConfusion hstate
    · rw [if_neg h3] at hcases
      by_cases h4 : ((g.guesses ++ [mkGuess w g.target]).length : Int) = g.guess_limit
      · rw [if_pos h4] at hcases
        rw [hcases.1] at hstate
        exact GameState.noConfusion hstate
      · rw [if_neg h4] at hcases
        have hlt := ih h1 (by rw [hlimit] at hlim; exact hlim)
        rw [hguesses, hlimit]
        simp only [List.length_append, List.length_cons, List.length_nil] at h4 ⊢
        push_cast at h4 ⊢
        omega

/-! ### The claims -/

/-- Claim C1: for every guess string and target string the scorer returns,
without raising, exactly one (symbol, outcome) pair per guess position
carrying the guess symbol, and the outcome sequence is exactly the spec's
two-pass multiset algorithm (`specScore`: Correct iff within target bounds
and matching, Elsewhere iff the remaining multiset count is positive,
Incorrect otherwise); in particular an empty guess yields an empty sequence
and an empty target an all-Incorrect sequence. -/
theorem C1_scorer_characterisation (guess target : List Char) :
    get_guess_letter_states guess target = specScore guess target ∧
    (get_guess_letter_states guess target).map Prod.fst = guess ∧
    get_guess_letter_states [] target = [] ∧
    get_guess_letter_states guess [] =
      guess.map fun c => (c, GuessLetterState.INCORRECT) := by
  refine ⟨gls_eq_specScore guess target, gls_map_fst guess target, rfl, ?_⟩
  rw [get_guess_letter_states]
  exact gls_empty_target_aux guess 0 _

/-- Claim C2, counterexample to the wording "the earlier occurrence is
scored Elsewhere": target "XC" has one C, guess "CC" has two, the
correct-position occurrence (index 1) appears later than the non-matching
occurrence (index 0), yet the scorer marks the earlier occurrence INCORRECT,
not ELSEWHERE. -/
theorem C2_counterexample :
    (['X', 'C'] : List Char).count 'C' = 1 ∧
    (['C', 'C'] : List Char).count 'C' = 2 ∧
    (['C', 'C'] : List Char)[0]? = some 'C' ∧
    (['C', 'C'] : List Char)[1]? = some 'C' ∧
    (['X', 'C'] : List Char)[1]? = some 'C' ∧
    get_guess_letter_states ['C', 'C'] ['X', 'C'] =
      [('C', GuessLetterState.INCORRECT), ('C', GuessLetterState.CORRECT)] := by
  decide

/-- Claim C2 as amended: when a symbol occurs once in the target and twice
in the guess, exactly one of the two occurrences is scored Correct or
Elsewhere and the other Incorrect; and when the occurrence at the correct
target position appears later in the guess than the other, non-matching
occurrence, the earlier occurrence is scored INCORRECT (the Correct match
exhausts the multiset count first) and the later one CORRECT. -/
theorem C2_duplicate_letter_law (g t : List Char) (c : Char)
    (h1 : t.count c = 1) (h2 : g.count c = 2) :
    (niCount c (get_guess_letter_states g t) = 1 ∧
      ccount c GuessLetterState.INCORRECT (get_guess_letter_states g t) = 1) ∧
    (∀ (i j : Nat), i < j → g[i]? = some c → g[j]? = some c → t[j]? = some c →
      (get_guess_letter_states g t)[i]? = some (c, GuessLetterState.INCORRECT) ∧
      (get_guess_letter_states g t)[j]? = some (c, GuessLetterState.CORRECT)) := by
  have hcg : c ∈ g := List.count_pos_iff.mp (by omega)
  have hct : c ∈ t := List.count_pos_iff.mp (by omega)
  have hle := gls_niCount_le g t c
  have hpos := niCount_pos c _ (gls_exists_nonInc g t c hcg hct)
  have hni : niCount c (get_guess_letter_states g t) = 1 := by omega
  have hsum := niCount_add_ccount_inc c (get_guess_letter_states g t)
  rw [gls_map_fst] at hsum
  have hinc : ccount c GuessLetterState.INCORRECT (get_guess_letter_states g t) = 1 := by
    omega
  refine ⟨⟨hni, hinc⟩, ?_⟩
  intro i j hij hgi hgj htj
  have hcorj : (get_guess_letter_states g t)[j]? = some (c, GuessLetterState.CORRECT) :=
    (gls_correct_iff g t j c).mpr ⟨hgj, htj⟩
  obtain ⟨si, hsi⟩ := gls_getElem?_exists g t i c hgi
  have hsiInc : si = GuessLetterState.INCORRECT := by
    by_contra hne
    have h2le := niCount_two_pos c (get_guess_letter_states g t) i j hij si
      GuessLetterState.CORRECT hsi hcorj hne (by simp)
    omega
  rw [hsiInc] at hsi
  exact ⟨hsi, hcorj⟩

theorem C2_witness :
    (get_guess_letter_states ['C', 'C'] ['X', 'C'])[0]? =
        some ('C', GuessLetterState.INCORRECT) ∧
    (get_guess_letter_states ['C', 'C'] ['X', 'C'])[1]? =
        some ('C', GuessLetterState.CORRECT) :=
  (C2_duplicate_letter_law ['C', 'C'] ['X', 'C'] 'C' (by decide) (by decide)).2
    0 1 (by decide) (by decide) (by decide) (by decide)

/-- Claim C3: on a reachable in-progress session, a valid candidate is
accepted; the status becomes SUCCEEDED iff the candidate equals the target,
otherwise FAILED iff a positive guess limit is configured and the history
has reached it, otherwise it stays GUESSING; the call returns true iff the
resulting status is SUCCEEDED or FAILED, and the history grows by exactly
one record (hence with limit N and no winning guess the session is lost
exactly on the Nth valid guess and never earlier). -/
theorem C3_submission_outcome (g : WordleGame) (w : List Char)
    (hr : ReachableGame g) (hstate : g.game_state = GameState.GUESSING)
    (hvalid : is_valid_word g w = true) :
    ∃ (g' : WordleGame) (fin : Bool), guess_word g w = Except.ok (g', fin) ∧
      g'.guesses.length = g.guesses.length + 1 ∧
      (g'.game_state = GameState.SUCCEEDED ↔ w = g.target) ∧
      (g'.game_state = GameState.FAILED ↔
        w ≠ g.target ∧ 1 ≤ g.guess_limit ∧
          g.guess_limit ≤ (g.guesses.length : Int) + 1) ∧
      (g'.game_state = GameState.GUESSING ↔
        w ≠ g.target ∧ ¬(1 ≤ g.guess_limit ∧
          g.guess_limit ≤ (g.guesses.length : Int) + 1)) ∧
      (fin = true ↔
        (g'.game_state = GameState.SUCCEEDED ∨ g'.game_state = GameState.FAILED)) := by
  have hupd := update_gls_eq_fold w g.target g.alphabet_states (reachable_alphaOK g hr)
  rw [guess_word_ok g w hstate hvalid _ hupd]
  have hlen : (g.guesses ++ [mkGuess w g.target]).length = g.guesses.length + 1 := by
    simp
  have hkey : (((g.guesses ++ [mkGuess w g.target]).length : Int) = g.guess_limit) ↔
      (1 ≤ g.guess_limit ∧ g.guess_limit ≤ (g.guesses.length : Int) + 1) := by
    rw [hlen]
    push_cast
    constructor
    · intro he
      omega
    · rintro ⟨ha, hb⟩
      have hlt := reachable_len_lt g hr hstate ha
      omega
  by_cases h3 : w = g.target
  · rw [if_pos h3]
    refine ⟨_, _, rfl, ?_, ?_, ?_, ?_, ?_⟩
    · simp
    · simp [h3]
    · simp [h3]
    · simp [h3]
    · simp
  · rw [if_neg h3]
    by_cases h4 : ((g.guesses ++ [mkGuess w g.target]).length : Int) = g.guess_limit
    · rw [if_pos h4]
      obtain ⟨ha, hb⟩ := hkey.mp h4
      refine ⟨_, _, rfl, ?_, ?_, ?_, ?_, ?_⟩
      · simp
      · simp [h3]
      · simp [h3, ha, hb]
      · simp [h3, ha, hb]
      · simp
    · rw [if_neg h4]
      have h5 : ¬(1 ≤ g.guess_limit ∧
          g.guess_limit ≤ (g.guesses.length : Int) + 1) :=
        fun hcontra => h4 (hkey.mpr hcontra)
      refine ⟨_, _, rfl, ?_, ?_, ?_, ?_, ?_⟩
      · simp
      · simp [hstate, h3]
      · simp [hstate, h3, h5]
      · simp [hstate, h3, h5]
      · simp [hstate]

theorem C3_witness : ∃ (g' : WordleGame) (fin : Bool),
    guess_word (initGame 1 [['A']] ['A']) ['A'] = Except.ok (g', fin) ∧
    g'.game_state = GameState.SUCCEEDED ∧ fin = true := by
  obtain ⟨g', fin, hok, hlen, hsucc, hfail, hguess, hfin⟩ :=
    C3_submission_outcome (initGame 1 [['A']] ['A']) ['A']
      (ReachableGame.init 1 [['A']] ['A'] (by simp)) rfl (by decide)
  exact ⟨g', fin, hok, hsucc.mpr rfl, hfin.mpr (Or.inl (hsucc.mpr rfl))⟩

/-- Claim C4: on an in-progress session a candidate is accepted exactly when
it is in the word dictionary and has the target's length; otherwise
`guess_word` raises InvalidGuessWordError and, the call being modelled as a
pure function that only returns a new state on success, the session is left
entirely unchanged. -/
theorem C4_invalid_guess_rejected (g : WordleGame) (w : List Char)
    (hstate : g.game_state = GameState.GUESSING) :
    (is_valid_word g w = true ↔
      w ∈ g.word_dictionary ∧ w.length = g.target.length) ∧
    (¬(w ∈ g.word_dictionary ∧ w.length = g.target.length) →
      guess_word g w = Except.error GuessError.InvalidGuessWordError) := by
  have hiff : is_valid_word g w = true ↔
      w ∈ g.word_dictionary ∧ w.length = g.target.length := by
    simp [is_valid_word]
  refine ⟨hiff, fun h => guess_word_invalid g w hstate ?_⟩
  rw [Bool.eq_false_iff]
  intro htrue
  exact h (hiff.mp htrue)

theorem C4_witness :
    guess_word (initGame 1 [['A']] ['A']) ['B'] =
      Except.error GuessError.InvalidGuessWordError := by
  refine (C4_invalid_guess_rejected (initGame 1 [['A']] ['A']) ['B'] rfl).2 ?_
  decide

/-- Claim C5: on a finished session (SUCCEEDED or FAILED) every submission
raises GameAlreadyFinishedError; the call is modelled as a pure function
that only returns a new state on success, so history, alphabet knowledge
and status are exactly as before. -/
theorem C5_finished_rejects (g : WordleGame) (w : List Char)
    (h : g.game_state = GameState.SUCCEEDED ∨ g.game_state = GameState.FAILED) :
    guess_word g w = Except.error GuessError.GameAlreadyFinishedError := by
  apply guess_word_finished
  rcases h with h | h <;> rw [h] <;> simp

theorem C5_witness :
    guess_word { initGame 1 [['A']] ['A'] with
      game_state := GameState.SUCCEEDED } ['A'] =
      Except.error GuessError.GameAlreadyFinishedError :=
  C5_finished_rejects _ ['A'] (Or.inl rfl)

/-- Claim C6: for a reachable session, folding a scored guess into the
alphabet knowledge succeeds (no assert) and equals the left fold of the
spec's per-pair rule `specAlphaStep`: CORRECT forces FOUND regardless of the
prior state, ELSEWHERE sets FOUND_ELSEWHERE unless the state is FOUND (then
unchanged), INCORRECT sets UNUSED only from NOT_GUESSED, and every other
symbol keeps its prior knowledge. -/
theorem C6_alphabet_fold_rule (g : WordleGame) (w : List Char)
    (hr : ReachableGame g) :
    update_alphabet_states g.alphabet_states (get_guess_letter_states w g.target) =
      some ((get_guess_letter_states w g.target).foldl specAlphaStep
        g.alphabet_states) :=
  update_gls_eq_fold w g.target g.alphabet_states (reachable_alphaOK g hr)

theorem C6_witness :
    update_alphabet_states (initGame 1 [['A']] ['A']).alphabet_states
        (get_guess_letter_states ['A'] ['A']) =
      some ((get_guess_letter_states ['A'] ['A']).foldl specAlphaStep
        (initGame 1 [['A']] ['A']).alphabet_states) :=
  C6_alphabet_fold_rule (initGame 1 [['A']] ['A']) ['A']
    (ReachableGame.init 1 [['A']] ['A'] (by simp))

/-- Claim C7: across an accepted guess on a reachable session, each symbol's
alphabet knowledge only moves forward: FOUND is absorbing, FOUND_ELSEWHERE
can only stay or become FOUND, the only transition out of UNUSED is the
permitted jump to FOUND, and NOT_GUESSED is the bottom of the ordering. -/
theorem C7_monotonic_knowledge (g : WordleGame) (w : List Char)
    (g' : WordleGame) (b : Bool) (_hr : ReachableGame g)
    (h : guess_word g w = Except.ok (g', b)) (c : Char) :
    stepOK (g.alphabet_states c) (g'.alphabet_states c) := by
  obtain ⟨-, -, hupd, -, -, -, -, -⟩ := guess_word_ok_inv g g' w b h
  exact update_alphabet_states_stepOK _ _ _ hupd c

theorem C7_witness : ∃ (g' : WordleGame) (b : Bool),
    guess_word (initGame 1 [['A']] ['A']) ['A'] = Except.ok (g', b) ∧
    stepOK ((initGame 1 [['A']] ['A']).alphabet_states 'A')
      (g'.alphabet_states 'A') := by
  refine ⟨_, _, rfl, C7_monotonic_knowledge _ ['A'] _ _
    (ReachableGame.init 1 [['A']] ['A'] (by simp)) rfl 'A'⟩

/-- Claim C8: when the alphabet knowledge was built exclusively by folding
scorer outputs for previously accepted guesses (a reachable session), the
update for any further scored guess never meets an ELSEWHERE outcome on a
symbol currently UNUSED: the assert guarding that branch is unreachable and
the update never fails. -/
theorem C8_assert_unreachable (g : WordleGame) (hr : ReachableGame g)
    (w : List Char) :
    update_alphabet_states g.alphabet_states
      (get_guess_letter_states w g.target) ≠ none := by
  rw [update_gls_eq_fold w g.target g.alphabet_states (reachable_alphaOK g hr)]
  simp

theorem C8_witness :
    update_alphabet_states (initGame 1 [['A']] ['A']).alphabet_states
      (get_guess_letter_states ['B'] ['A']) ≠ none :=
  C8_assert_unreachable (initGame 1 [['A']] ['A'])
    (ReachableGame.init 1 [['A']] ['A'] (by simp)) ['B']

/-- Claim C9: scoring guess "POPOP" against target "APPLE" yields exactly
[(P,Elsewhere), (O,Incorrect), (P,Correct), (O,Incorrect), (P,Incorrect)]. -/
theorem C9_popop_apple :
    get_guess_letter_states ['P', 'O', 'P', 'O', 'P'] ['A', 'P', 'P', 'L', 'E'] =
      [('P', GuessLetterState.ELSEWHERE), ('O', GuessLetterState.INCORRECT),
       ('P', GuessLetterState.CORRECT), ('O', GuessLetterState.INCORRECT),
       ('P', GuessLetterState.INCORRECT)] := by
  decide

/-- Claim C10: for every guess, target and symbol, the number of positions
whose symbol is that symbol and whose outcome is CORRECT or ELSEWHERE never
exceeds the number of occurrences of the symbol in the target. -/
theorem C10_marks_bounded_by_target (guess target : List Char) (c : Char) :
    niCount c (get_guess_letter_states guess target) ≤ target.count c :=
  gls_niCount_le guess target c

end Wordall
